import Mathlib

/-!
Verification of the Δₛ³ semantic-delta scorer (delta-s3-rust/src/lib.rs) and
of the full-catalog ranking step (src/bin/benchmark_full.rs).

Modelling conventions:
* Rust `&str` values are modelled as `List Char` (Unicode scalar values).
* Rust `f64` arithmetic is modelled over `ℚ`; every constant of the scorer
  (0.40, 0.25, 1.05, …) is exactly representable, and all claims under study
  concern order/equality facts that are insensitive to this idealisation.
* Rust `HashSet` values are modelled as `Finset` (the code only ever takes
  cardinalities of intersections and unions, which are set-theoretic).
* The NFC pass performed by the external `unicode_normalization` crate is
  modelled as the identity on the character sequence; all claims concern the
  tokenizer and the scorers, which do not depend on combining sequences.
-/

set_option maxHeartbeats 1600000
set_option maxRecDepth 8000

namespace DeltaS3

abbrev Token := List Char

/-- NFC canonical composition, performed in the source by the external
`unicode_normalization` crate (`text.nfc()`); modelled as the identity on
the character sequence. -/
def nfc (text : List Char) : List Char := text

/-- Splitting on every non-alphanumeric character while dropping empty
fragments (`text_lower.split(|c| !c.is_alphanumeric()).filter(|s| !s.is_empty())`).
The accumulator holds the current alphanumeric run, reversed. -/
def splitAlnumAux : List Char → List Char → List Token
  | [], acc => if acc = [] then [] else [acc.reverse]
  | c :: cs, acc =>
    if c.isAlphanum then
      splitAlnumAux cs (c :: acc)
    else if acc = [] then
      splitAlnumAux cs []
    else
      acc.reverse :: splitAlnumAux cs []

/-- Tokenization prefix of `normalize_v2`: NFC, lower-case, split on
non-alphanumeric characters, drop empty fragments. -/
def tokenize (text : List Char) : List Token :=
  splitAlnumAux ((nfc text).map Char.toLower) []

/-- Constant table ROMAN_NUMERALS from the source. -/
def ROMAN_NUMERALS : List Token :=
  (["i", "ii", "iii", "iv", "v", "vi", "vii", "viii", "ix", "x",
    "xi", "xii", "xiii", "xiv", "xv", "xvi", "xvii", "xviii", "xix", "xx"]).map
    String.toList

/-- Constant table ROMAN_TO_ARABIC from the source. -/
def ROMAN_TO_ARABIC : List (Token × Token) :=
  ([("i", "1"), ("ii", "2"), ("iii", "3"), ("iv", "4"), ("v", "5"),
    ("vi", "6"), ("vii", "7"), ("viii", "8"), ("ix", "9"), ("x", "10"),
    ("xi", "11"), ("xii", "12"), ("xiii", "13"), ("xiv", "14"), ("xv", "15"),
    ("xvi", "16"), ("xvii", "17"), ("xviii", "18"), ("xix", "19"), ("xx", "20")]).map
    (fun p => (p.1.toList, p.2.toList))

/-- Constant table DLC_KEYWORDS from the source. -/
def DLC_KEYWORDS : List Token :=
  (["goty", "definitive", "remaster", "remastered", "hd", "edition",
    "dlc", "season", "bundle", "trilogy", "collection", "enhanced",
    "complete", "ultimate", "deluxe", "premium", "gold"]).map String.toList

/-- Gate for the roman-numeral mapping (`should_map_roman`): some token of
length 1–4 is all ASCII digits or is one of the roman numerals.  Rust
measures `t.len()` in bytes; tokens for which the inner predicate can hold
are ASCII, where byte length and scalar count agree, so the gate is modelled
with the character count. -/
def should_map_roman (tokens : List Token) : Bool :=
  (tokens.filter (fun t => decide (1 ≤ t.length) && decide (t.length ≤ 4))).any
    (fun t => t.all (fun c => c.isDigit) || ROMAN_NUMERALS.contains t)

/-- Per-token body of the roman-mapping loop in `normalize_v2`: the first
pair of ROMAN_TO_ARABIC whose key equals the token replaces it (`break`),
otherwise the token is unchanged. -/
def mapRomanToken (t : Token) : Token :=
  match ROMAN_TO_ARABIC.find? (fun p => p.1 == t) with
  | some p => p.2
  | none => t

/-- The normalizer `normalize_v2`. -/
def normalize_v2 (text : List Char) : List Token :=
  let tokens := tokenize text
  if should_map_roman tokens then tokens.map mapRomanToken else tokens

/-- `is_dlc_like`: substring containment of any DLC keyword in the
space-joined token sequence (`tokens.join(" ")`, `tokens_str.contains(kw)`). -/
def is_dlc_like (tokens : List Token) : Bool :=
  let tokens_str := List.intercalate ([' ']) tokens
  DLC_KEYWORDS.any (fun kw => decide (kw <:+: tokens_str))

/-- `make_bigrams`: each adjacent token pair, joined with an underscore
(`format!("{}_{}", w[0], w[1])`), collected into a set. -/
def make_bigrams (tokens : List Token) : Finset Token :=
  ((tokens.zip tokens.tail).map (fun w => w.1 ++ '_' :: w.2)).toFinset

/-- `jaccard_index` (unigrams plus bigrams). -/
def jaccard_index (tokens_a tokens_b : List Token) : ℚ :=
  if tokens_a = [] ∧ tokens_b = [] then 1
  else if tokens_a = [] ∨ tokens_b = [] then 0
  else
    let set_a := tokens_a.toFinset
    let set_b := tokens_b.toFinset
    let inter := (set_a ∩ set_b).card
    let union := (set_a ∪ set_b).card
    let bigrams_a := make_bigrams tokens_a
    let bigrams_b := make_bigrams tokens_b
    let bi_inter := (bigrams_a ∩ bigrams_b).card
    let bi_union := (bigrams_a ∪ bigrams_b).card
    let total_inter := inter + bi_inter
    let total_union := union + bi_union
    if total_union = 0 then 0 else (total_inter : ℚ) / (total_union : ℚ)

/-- Inner loop of `levenshtein_distance`: given the current character `ca`
of `a`, the remaining characters of `b`, the suffix of the previous row
starting at the current column, and the value just written into the current
row, produce the remaining entries of the current row
(`curr_row[j+1] = min(curr_row[j]+1, prev_row[j+1]+1, prev_row[j]+cost)`). -/
def levRowAux (ca : Char) : List Char → List Nat → Nat → List Nat
  | cb :: bs, pj :: pj1 :: ps, cj =>
    let v := min (cj + 1) (min (pj1 + 1) (pj + (if ca = cb then 0 else 1)))
    v :: levRowAux ca bs (pj1 :: ps) v
  | _, _, _ => []

/-- One iteration of the outer loop of `levenshtein_distance`: the previous
row starts with `i` (row `i` of the table always has `prev_row[0] = i`), so
`curr_row[0] = i + 1 = prev_row[0] + 1`, followed by the inner loop. -/
def levRowStep (b : List Char) (prev : List Nat) (ca : Char) : List Nat :=
  match prev with
  | p0 :: _ => (p0 + 1) :: levRowAux ca b prev (p0 + 1)
  | [] => []

/-- `levenshtein_distance`: the two-row dynamic program from the source,
operating on Unicode scalar values (`a.chars()`). -/
def levenshtein_distance (a b : List Char) : Nat :=
  if a = [] then b.length
  else if b = [] then a.length
  else (a.foldl (levRowStep b) (List.range (b.length + 1))).getLastD 0

/-- UTF-8 byte length of a token: the unit of Rust `str::len`, used by
`levenshtein_sim` for `max_len`. -/
def utf8Length (s : List Char) : Nat := (s.map Char.utf8Size).sum

/-- `levenshtein_sim`: note that the source computes `dist` over
`chars()` (scalar values) but `max_len` over `a.len()` (bytes). -/
def levenshtein_sim (a b : Token) : ℚ :=
  let dist := levenshtein_distance a b
  let max_len := max (utf8Length a) (utf8Length b)
  if max_len = 0 then 1 else 1 - (dist : ℚ) / (max_len : ℚ)

/-- `l_symmetric`: forward/backward best-match averages. -/
def l_symmetric (tokens_a tokens_b : List Token) : ℚ :=
  if tokens_a = [] ∧ tokens_b = [] then 1
  else if tokens_a = [] ∨ tokens_b = [] then 0
  else
    let fwd_scores := tokens_a.map
      (fun a => (tokens_b.map (fun b => levenshtein_sim a b)).foldl max 0)
    let bwd_scores := tokens_b.map
      (fun b => (tokens_a.map (fun a => levenshtein_sim a b)).foldl max 0)
    let fwd_avg := fwd_scores.sum / (fwd_scores.length : ℚ)
    let bwd_avg := bwd_scores.sum / (bwd_scores.length : ℚ)
    (fwd_avg + bwd_avg) / 2

/-- The anchor character set of the anchor scorer. -/
def anchorChars : List Char := ['+', '-', '#', ':', '.']

/-- The anchor scorer (source function `compute_anchor_ratio`, renamed):
Jaccard of the sets of anchor characters present in the two concatenated
strings, with the both-empty case short-circuited to 1. -/
def compute_anchor_score (q_concat t_concat : List Char) : ℚ :=
  let q_anchors := (q_concat.filter (fun c => anchorChars.contains c)).toFinset
  let t_anchors := (t_concat.filter (fun c => anchorChars.contains c)).toFinset
  if q_anchors = ∅ ∧ t_anchors = ∅ then 1
  else
    let inter := (q_anchors ∩ t_anchors).card
    let union := (q_anchors ∪ t_anchors).card
    if union = 0 then 1 else (inter : ℚ) / (union : ℚ)

/-- Body of `semantic_delta_title` between the empty-token early return and
the DLC debias: J, L, R, the two correction terms, the Jaccard cap and the
weighted combination clamped to at most 1. -/
def title_base_delta (q_tokens t_tokens : List Token) : ℚ :=
  let j0 := jaccard_index q_tokens t_tokens
  let l := l_symmetric q_tokens t_tokens
  let r := compute_anchor_score q_tokens.flatten t_tokens.flatten
  let alpha : ℚ := 0.25
  let beta : ℚ := 0.35
  let mu_space := if q_tokens.length = 1 ∧ t_tokens.length > 1 then alpha * (1 - j0) else 0
  let mu_anchor := beta * (1 - r)
  let j1 := min (j0 + mu_space) 1
  let j_cap : ℚ := 0.80
  let j := min j1 j_cap
  let w_j : ℚ := 0.40
  let w_l : ℚ := 0.40
  let w_r : ℚ := 0.20
  let delta := w_j * (1 - j) + w_l * (1 - l) + w_r * (1 - r)
  min (delta + mu_anchor) 1

/-- `apply_dlc_debias`: 5% penalty when the candidate looks like a DLC or
edition and the query does not. -/
def apply_dlc_debias (delta : ℚ) (q_tokens t_tokens : List Token) : ℚ :=
  if is_dlc_like t_tokens && !is_dlc_like q_tokens then min (delta * 1.05) 1 else delta

/-- `semantic_delta_title`, the TITLE-mode scorer. -/
def semantic_delta_title (query title : List Char) : ℚ :=
  let q_tokens := normalize_v2 query
  let t_tokens := normalize_v2 title
  if q_tokens = [] ∨ t_tokens = [] then 1
  else
    let delta := apply_dlc_debias (title_base_delta q_tokens t_tokens) q_tokens t_tokens
    min (max delta 0) 1

/-- `semantic_delta_v3` currently always dispatches to TITLE mode. -/
def semantic_delta_v3 (query title : List Char) : ℚ :=
  semantic_delta_title query title

/-- Ranking step of `evaluate_query_full`: score every title
(`enumerate().map(..)`), then sort ascending by Δ
(`scores.sort_by(|a, b| a.1.partial_cmp(&b.1).unwrap())`).  Rust
`slice::sort_by` is a stable sort; it is modelled by insertion sort, which
is stable for the same comparator. -/
def rank (query : List Char) (titles : List (List Char)) : List (Nat × ℚ) :=
  List.insertionSort (fun a b => a.2 ≤ b.2)
    ((titles.enum).map (fun p => (p.1, semantic_delta_v3 query p.2)))

/-- Specification-side Levenshtein distance: the classic recursion counting
single-character insert, delete and substitute operations over Unicode
scalar values (glossary: "minimum single-character insert/delete/substitute
operations to transform one string into another"). -/
def levRec : List Char → List Char → Nat
  | [], b => b.length
  | _ :: as, [] => as.length + 1
  | a0 :: as, b0 :: bs =>
    min (levRec as (b0 :: bs) + 1)
      (min (levRec (a0 :: as) bs + 1) (levRec as bs + (if a0 = b0 then 0 else 1)))
  termination_by a b => a.length + b.length
  decreasing_by all_goals simp_arith

/-- Specification-side arabic digit string of a roman numeral, read off the
ROMAN_TO_ARABIC table. -/
def arabicOf (t : Token) : Token :=
  (((ROMAN_TO_ARABIC.find? (fun p => p.1 == t)).map Prod.snd).getD t)

/-- Specification-side combiner, written step for step from the §4.5 recipe
as quoted by claim C1: compute J, L, R; single-token correction
`J := min(J + 0.25·(1-J), 1)`; cap J at 0.80; set
`Δ = 0.40·(1-J) + 0.40·(1-L) + 0.20·(1-R) + 0.35·(1-R)` clamped to at most
1; apply the DLC debias; clamp to [0,1]. -/
def spec_delta (query candidate : List Char) : ℚ :=
  let qt := normalize_v2 query
  let ct := normalize_v2 candidate
  if qt = [] ∨ ct = [] then 1
  else
    let J0 := jaccard_index qt ct
    let L := l_symmetric qt ct
    let R := compute_anchor_score qt.flatten ct.flatten
    let J1 := if qt.length = 1 ∧ ct.length > 1 then min (J0 + 0.25 * (1 - J0)) 1 else J0
    let J := min J1 0.80
    let base := min (0.40 * (1 - J) + 0.40 * (1 - L) + 0.20 * (1 - R) + 0.35 * (1 - R)) 1
    min (max (apply_dlc_debias base qt ct) 0) 1

/-- Helper for the correctness proof of the dynamic program: the list of all
prefixes of a string, shortest first. -/
def initsL : List Char → List (List Char)
  | [] => [[]]
  | c :: cs => [] :: (initsL cs).map (fun r => c :: r)

/-! ### Correctness of the Levenshtein dynamic program -/

theorem levRec_nil_left (b : List Char) : levRec [] b = b.length := by
  simp [levRec]

theorem levRec_nil_right (a : List Char) : levRec a [] = a.length := by
  cases a <;> simp [levRec]

theorem levRec_cons_cons (a0 b0 : Char) (as bs : List Char) :
    levRec (a0 :: as) (b0 :: bs) =
      min (levRec as (b0 :: bs) + 1)
        (min (levRec (a0 :: as) bs + 1) (levRec as bs + (if a0 = b0 then 0 else 1))) := by
  simp [levRec]

/-- Transposition identity for a 3-by-3 grid of `min`-combined terms: both
sides equal the minimum of the nine inner sums.  This is the pure arithmetic
content of the agreement between the front-peeling recurrence and the
back-appending recurrence of the edit distance. -/
theorem min_grid (T1 T2 T3 T4 T5 T6 T7 T8 T9 c1 c2 : Nat) :
    min (min (T1 + 1) (min (T8 + 1) (T9 + c1)) + 1)
      (min (min (T2 + 1) (min (T4 + 1) (T5 + c1)) + 1)
        (min (T3 + 1) (min (T6 + 1) (T7 + c1)) + c2))
  = min (min (T1 + 1) (min (T2 + 1) (T3 + c2)) + 1)
      (min (min (T8 + 1) (min (T4 + 1) (T6 + c2)) + 1)
        (min (T9 + 1) (min (T5 + 1) (T7 + c2)) + c1)) := by
  simp only [← min_add_add_right]
  apply le_antisymm <;> simp only [le_min_iff, min_le_iff] <;> omega

/-- The recursion peeling characters off the front satisfies the recurrence
that appends characters at the back; this is the row recurrence the dynamic
program implements. -/
theorem levRec_snoc (x y : Char) (a b : List Char) :
    levRec (a ++ [x]) (b ++ [y]) =
      min (levRec a (b ++ [y]) + 1)
        (min (levRec (a ++ [x]) b + 1) (levRec a b + (if x = y then 0 else 1))) := by
  induction a generalizing b with
  | nil =>
    induction b with
    | nil => simp [levRec]
    | cons b0 bs ihb =>
      have h0 := ihb
      simp only [List.nil_append] at h0 ⊢
      rw [show (b0 :: bs) ++ [y] = b0 :: (bs ++ [y]) from rfl]
      rw [levRec_cons_cons x b0 [] (bs ++ [y]), h0,
        levRec_cons_cons x b0 [] bs]
      simp only [levRec_nil_left, List.length_append, List.length_cons, List.length_nil]
      split_ifs <;> omega
  | cons a0 as iha =>
    induction b with
    | nil =>
      have h0 := iha []
      simp only [List.nil_append] at h0 ⊢
      rw [show (a0 :: as) ++ [x] = a0 :: (as ++ [x]) from rfl]
      rw [levRec_cons_cons a0 y (as ++ [x]) [], h0,
        levRec_cons_cons a0 y as []]
      simp only [levRec_nil_right, levRec_nil_left, List.length_append, List.length_cons,
        List.length_nil]
      split_ifs <;> omega
    | cons b0 bs ihb =>
      have hA := iha (b0 :: bs)
      have hB := ihb
      have hC := iha bs
      simp only [List.cons_append] at hA hB hC ⊢
      rw [levRec_cons_cons a0 b0 (as ++ [x]) (bs ++ [y]), hA, hB, hC,
        levRec_cons_cons a0 b0 as (bs ++ [y]),
        levRec_cons_cons a0 b0 (as ++ [x]) bs,
        levRec_cons_cons a0 b0 as bs]
      generalize (if x = y then (0 : Nat) else 1) = c1
      generalize (if a0 = b0 then (0 : Nat) else 1) = c2
      generalize levRec as (b0 :: (bs ++ [y])) = T1
      generalize levRec (a0 :: as) (bs ++ [y]) = T2
      generalize levRec as (bs ++ [y]) = T3
      generalize levRec (a0 :: (as ++ [x])) bs = T4
      generalize levRec (a0 :: as) bs = T5
      generalize levRec (as ++ [x]) bs = T6
      generalize levRec as bs = T7
      generalize levRec (as ++ [x]) (b0 :: bs) = T8
      generalize levRec as (b0 :: bs) = T9
      exact min_grid T1 T2 T3 T4 T5 T6 T7 T8 T9 c1 c2

theorem initsL_eq_cons (l : List Char) : initsL l = [] :: (initsL l).tail := by
  cases l <;> simp [initsL]

theorem map_initsL_cons {α : Type} (g : List Char → α) (c : Char) (cs : List Char) :
    (initsL (c :: cs)).map g = g [] :: (initsL cs).map (fun r => g (c :: r)) := by
  simp [initsL, List.map_map, Function.comp]

theorem levRowAux_cons (ca cb : Char) (bs : List Char) (pj pj1 : Nat) (ps : List Nat)
    (cj : Nat) :
    levRowAux ca (cb :: bs) (pj :: pj1 :: ps) cj =
      min (cj + 1) (min (pj1 + 1) (pj + (if ca = cb then 0 else 1))) ::
        levRowAux ca bs (pj1 :: ps)
          (min (cj + 1) (min (pj1 + 1) (pj + (if ca = cb then 0 else 1)))) := by
  simp [levRowAux]

/-- Invariant of the inner loop: fed the suffix of the previous row holding
the distances from `p` to the prefixes `q ++ r` (`r` ranging over prefixes
of `bsuf`) and the freshly written current-row entry for `q`, it produces
the current-row entries for all strictly longer prefixes. -/
theorem levRowAux_spec (ca : Char) (p : List Char) :
    ∀ (bsuf q : List Char),
      levRowAux ca bsuf ((initsL bsuf).map (fun r => levRec p (q ++ r)))
          (levRec (p ++ [ca]) q)
        = ((initsL bsuf).map (fun r => levRec (p ++ [ca]) (q ++ r))).tail := by
  intro bsuf
  induction bsuf with
  | nil => intro q; simp [initsL, levRowAux]
  | cons cb bs ih =>
    intro q
    rw [map_initsL_cons, map_initsL_cons, List.tail_cons]
    rw [initsL_eq_cons bs]
    simp only [List.map_cons, List.append_nil]
    rw [levRowAux_cons]
    have hv : min (levRec (p ++ [ca]) q + 1)
        (min (levRec p (q ++ [cb]) + 1) (levRec p q + (if ca = cb then 0 else 1)))
        = levRec (p ++ [ca]) (q ++ [cb]) := by
      rw [levRec_snoc]
      omega
    rw [hv]
    congr 1
    have hx := ih (q ++ [cb])
    rw [initsL_eq_cons bs] at hx
    simp only [List.map_cons, List.tail_cons, List.append_nil, List.append_assoc,
      List.singleton_append] at hx
    exact hx

/-- One outer-loop iteration turns the row of distances from `p` into the
row of distances from `p ++ [ca]`. -/
theorem levRowStep_spec (b p : List Char) (ca : Char) :
    levRowStep b ((initsL b).map (fun r => levRec p r)) ca
      = (initsL b).map (fun r => levRec (p ++ [ca]) r) := by
  have haux := levRowAux_spec ca p b []
  simp only [List.nil_append] at haux
  rw [initsL_eq_cons b]
  simp only [List.map_cons]
  rw [show levRowStep b
        (levRec p [] :: ((initsL b).tail.map (fun r => levRec p r))) ca
      = (levRec p [] + 1) ::
          levRowAux ca b (levRec p [] :: ((initsL b).tail.map (fun r => levRec p r)))
            (levRec p [] + 1) from rfl]
  have hc : levRec p [] + 1 = levRec (p ++ [ca]) [] := by
    simp [levRec_nil_right]
  rw [hc]
  rw [show levRec p [] :: ((initsL b).tail.map fun r => levRec p r)
      = (initsL b).map (fun r => levRec p r) from by
    conv_rhs => rw [initsL_eq_cons b]
    simp]
  rw [haux]
  conv_rhs => rw [initsL_eq_cons b]
  simp

theorem initsL_map_length (l : List Char) :
    (initsL l).map List.length = List.range (l.length + 1) := by
  induction l with
  | nil => rfl
  | cons c cs ih =>
    rw [List.range_succ_eq_map]
    simp only [initsL, List.map_cons, List.map_map, List.length_cons, List.length_nil]
    rw [← ih]
    simp [Function.comp]

theorem getLastD_map_initsL (f : List Char → Nat) (l : List Char) (d : Nat) :
    ((initsL l).map f).getLastD d = f l := by
  induction l generalizing f d with
  | nil => rfl
  | cons c cs ih =>
    simp only [initsL, List.map_cons, List.map_map, List.getLastD_cons]
    exact ih (fun r => f (c :: r)) (f [])

/-- The two-row dynamic program of the source computes exactly the classic
Levenshtein distance. -/
theorem levenshtein_distance_eq_levRec (a b : List Char) :
    levenshtein_distance a b = levRec a b := by
  unfold levenshtein_distance
  by_cases ha : a = []
  · simp [ha, levRec_nil_left]
  · by_cases hb : b = []
    · simp [ha, hb, levRec_nil_right]
    · simp only [ha, hb, if_false]
      have hinit : List.range (b.length + 1) = (initsL b).map (fun r => levRec [] r) := by
        rw [← initsL_map_length]
        exact (List.map_congr_left (fun r _ => (levRec_nil_left r).symm))
      rw [hinit]
      have hfold : ∀ (p : List Char),
          p.foldl (levRowStep b) ((initsL b).map (fun r => levRec [] r))
            = (initsL b).map (fun r => levRec p r) := by
        intro p
        induction p using List.reverseRecOn with
        | nil => rfl
        | append_singleton as x ih =>
          rw [List.foldl_append, ih]
          simpa using levRowStep_spec b as x
      rw [hfold a, getLastD_map_initsL]

theorem levRec_self (a : List Char) : levRec a a = 0 := by
  induction a with
  | nil => simp [levRec]
  | cons x xs ih =>
    rw [levRec_cons_cons]
    simp [ih]

/-! ### Tokenizer facts -/

theorem splitAlnumAux_mem : ∀ (l acc : List Char),
    (∀ c ∈ acc, c.isAlphanum = true) →
    ∀ t ∈ splitAlnumAux l acc, t ≠ [] ∧ ∀ c ∈ t, c.isAlphanum = true := by
  intro l
  induction l with
  | nil =>
    intro acc hacc t ht
    simp only [splitAlnumAux] at ht
    by_cases ha : acc = []
    · rw [if_pos ha] at ht
      simp at ht
    · rw [if_neg ha] at ht
      simp only [List.mem_singleton] at ht
      subst ht
      refine ⟨by simpa using ha, ?_⟩
      intro c hc
      exact hacc c (List.mem_reverse.mp hc)
  | cons c cs ih =>
    intro acc hacc t ht
    simp only [splitAlnumAux] at ht
    by_cases hc : c.isAlphanum
    · rw [if_pos hc] at ht
      refine ih (c :: acc) ?_ t ht
      intro d hd
      rcases List.mem_cons.mp hd with rfl | hd
      · exact hc
      · exact hacc d hd
    · rw [if_neg hc] at ht
      by_cases ha : acc = []
      · rw [if_pos ha] at ht
        exact ih [] (by simp) t ht
      · rw [if_neg ha] at ht
        rcases List.mem_cons.mp ht with rfl | ht
        · refine ⟨by simpa using ha, ?_⟩
          intro d hd
          exact hacc d (List.mem_reverse.mp hd)
        · exact ih [] (by simp) t ht

theorem splitAlnumAux_eq_nil : ∀ (l acc : List Char),
    splitAlnumAux l acc = [] → acc = [] ∧ ∀ c ∈ l, ¬ c.isAlphanum = true := by
  intro l
  induction l with
  | nil =>
    intro acc h
    simp only [splitAlnumAux] at h
    by_cases ha : acc = []
    · exact ⟨ha, by simp⟩
    · rw [if_neg ha] at h
      simp at h
  | cons c cs ih =>
    intro acc h
    simp only [splitAlnumAux] at h
    by_cases hc : c.isAlphanum
    · rw [if_pos hc] at h
      exact absurd ((ih (c :: acc) h).1) (by simp)
    · rw [if_neg hc] at h
      by_cases ha : acc = []
      · rw [if_pos ha] at h
        refine ⟨ha, ?_⟩
        intro d hd
        rcases List.mem_cons.mp hd with rfl | hd
        · exact hc
        · exact (ih [] h).2 d hd
      · rw [if_neg ha] at h
        simp at h

theorem isAlphanum_toLower (c : Char) (h : c.isAlphanum = true) :
    (c.toLower).isAlphanum = true := by
  unfold Char.toLower
  by_cases hup : 65 ≤ c.toNat ∧ c.toNat ≤ 90
  · rw [if_pos hup]
    obtain ⟨h1, h2⟩ := hup
    set n := c.toNat with hn
    interval_cases n <;> decide
  · rw [if_neg hup]
    exact h

theorem tokenize_mem (text : List Char) :
    ∀ t ∈ tokenize text, t ≠ [] ∧ ∀ c ∈ t, c.isAlphanum = true :=
  splitAlnumAux_mem _ [] (by simp)

theorem tokenize_ne_nil (text : List Char) (h : ∃ c ∈ text, c.isAlphanum = true) :
    tokenize text ≠ [] := by
  intro hnil
  obtain ⟨c, hc, hal⟩ := h
  have := (splitAlnumAux_eq_nil _ [] hnil).2 (c.toLower)
    (by simpa [nfc] using List.mem_map_of_mem Char.toLower hc)
  exact this (isAlphanum_toLower c hal)

theorem ROMAN_TO_ARABIC_snd_alnum :
    ∀ p ∈ ROMAN_TO_ARABIC, p.2 ≠ [] ∧ ∀ c ∈ p.2, c.isAlphanum = true := by
  decide

theorem mapRomanToken_mem (t : Token) (h : t ≠ [] ∧ ∀ c ∈ t, c.isAlphanum = true) :
    mapRomanToken t ≠ [] ∧ ∀ c ∈ mapRomanToken t, c.isAlphanum = true := by
  unfold mapRomanToken
  cases hf : ROMAN_TO_ARABIC.find? (fun p => p.1 == t) with
  | none => exact h
  | some p => exact ROMAN_TO_ARABIC_snd_alnum p (List.mem_of_find?_eq_some hf)

theorem normalize_v2_mem (text : List Char) :
    ∀ t ∈ normalize_v2 text, t ≠ [] ∧ ∀ c ∈ t, c.isAlphanum = true := by
  intro t ht
  unfold normalize_v2 at ht
  by_cases hs : should_map_roman (tokenize text)
  · rw [if_pos hs] at ht
    obtain ⟨u, hu, rfl⟩ := List.mem_map.mp ht
    exact mapRomanToken_mem u (tokenize_mem text u hu)
  · rw [if_neg hs] at ht
    exact tokenize_mem text t ht

theorem normalize_v2_eq_nil_iff (text : List Char) :
    normalize_v2 text = [] ↔ tokenize text = [] := by
  unfold normalize_v2
  by_cases hs : should_map_roman (tokenize text) <;>
    simp [hs, List.map_eq_nil_iff]

theorem normalize_v2_ne_nil (text : List Char) (h : ∃ c ∈ text, c.isAlphanum = true) :
    normalize_v2 text ≠ [] := by
  rw [ne_eq, normalize_v2_eq_nil_iff]
  exact tokenize_ne_nil text h

theorem normalize_v2_flatten_alnum (text : List Char) :
    ∀ c ∈ (normalize_v2 text).flatten, c.isAlphanum = true := by
  intro c hc
  obtain ⟨t, ht, hct⟩ := List.mem_flatten.mp hc
  exact (normalize_v2_mem text t ht).2 c hct

/-! ### Bounds and self-similarity of the three scorers -/

theorem jaccard_index_le_one (a b : List Token) : jaccard_index a b ≤ 1 := by
  simp only [jaccard_index]
  split
  · exact le_refl 1
  · split
    · norm_num
    · split
      · norm_num
      · rename_i hne hu
        rw [div_le_one (by positivity)]
        have h1 : (a.toFinset ∩ b.toFinset).card ≤ (a.toFinset ∪ b.toFinset).card :=
          Finset.card_le_card (Finset.Subset.trans Finset.inter_subset_left
            Finset.subset_union_left)
        have h2 : (make_bigrams a ∩ make_bigrams b).card
            ≤ (make_bigrams a ∪ make_bigrams b).card :=
          Finset.card_le_card (Finset.Subset.trans Finset.inter_subset_left
            Finset.subset_union_left)
        push_cast
        exact_mod_cast add_le_add h1 h2

theorem jaccard_index_self (a : List Token) (h : a ≠ []) : jaccard_index a a = 1 := by
  simp only [jaccard_index]
  rw [if_neg (by simp [h]), if_neg (by simp [h])]
  simp only [Finset.inter_self, Finset.union_self]
  rw [if_neg, div_self]
  · have : 0 < a.toFinset.card := by
      rcases a with _ | ⟨t, ts⟩
      · exact absurd rfl h
      · exact Finset.card_pos.mpr ⟨t, by simp⟩
    positivity
  · have : 0 < a.toFinset.card := by
      rcases a with _ | ⟨t, ts⟩
      · exact absurd rfl h
      · exact Finset.card_pos.mpr ⟨t, by simp⟩
    omega

theorem utf8Length_eq_zero_iff (s : List Char) : utf8Length s = 0 ↔ s = [] := by
  cases s with
  | nil => simp [utf8Length]
  | cons c cs =>
    simp only [utf8Length, List.map_cons, List.sum_cons]
    have := c.utf8Size_pos
    constructor
    · intro h; omega
    · intro h; simp at h

theorem levenshtein_sim_le_one (a b : Token) : levenshtein_sim a b ≤ 1 := by
  simp only [levenshtein_sim]
  split
  · exact le_refl 1
  · rw [sub_le_self_iff]
    positivity

theorem levenshtein_sim_self (a : Token) : levenshtein_sim a a = 1 := by
  simp only [levenshtein_sim]
  split
  · rfl
  · rw [levenshtein_distance_eq_levRec, levRec_self]
    simp

theorem foldl_max_le {c : ℚ} : ∀ (l : List ℚ) (i : ℚ), i ≤ c → (∀ x ∈ l, x ≤ c) →
    l.foldl max i ≤ c := by
  intro l
  induction l with
  | nil => intro i hi _; simpa using hi
  | cons y ys ih =>
    intro i hi hl
    simp only [List.foldl_cons]
    exact ih (max i y) (max_le hi (hl y (by simp))) (fun x hx => hl x (by simp [hx]))

theorem le_foldl_max : ∀ (l : List ℚ) (i : ℚ), i ≤ l.foldl max i := by
  intro l
  induction l with
  | nil => intro i; simp
  | cons y ys ih =>
    intro i
    simp only [List.foldl_cons]
    exact le_trans (le_max_left i y) (ih (max i y))

theorem mem_le_foldl_max : ∀ (l : List ℚ) (i : ℚ) (x : ℚ), x ∈ l → x ≤ l.foldl max i := by
  intro l
  induction l with
  | nil => intro i x hx; simp at hx
  | cons y ys ih =>
    intro i x hx
    rcases List.mem_cons.mp hx with rfl | hx
    · simp only [List.foldl_cons]
      exact le_trans (le_max_right i x) (le_foldl_max ys (max i x))
    · simp only [List.foldl_cons]
      exact ih (max i y) x hx

theorem sum_le_length (l : List ℚ) (h : ∀ x ∈ l, x ≤ 1) : l.sum ≤ (l.length : ℚ) := by
  induction l with
  | nil => simp
  | cons y ys ih =>
    simp only [List.sum_cons, List.length_cons]
    push_cast
    have h1 := h y (by simp)
    have h2 := ih (fun x hx => h x (by simp [hx]))
    linarith

theorem sum_eq_length_of_all_one (l : List ℚ) (h : ∀ x ∈ l, x = 1) :
    l.sum = (l.length : ℚ) := by
  induction l with
  | nil => simp
  | cons y ys ih =>
    simp only [List.sum_cons, List.length_cons]
    push_cast
    rw [h y (by simp), ih (fun x hx => h x (by simp [hx]))]
    ring

theorem l_symmetric_le_one (a b : List Token) : l_symmetric a b ≤ 1 := by
  simp only [l_symmetric]
  split
  · exact le_refl 1
  · split
    · norm_num
    · rename_i hboth hone
      have hA : a ≠ [] := fun h => hone (Or.inl h)
      have hB : b ≠ [] := fun h => hone (Or.inr h)
      have hfwd : ∀ x ∈ a.map (fun t =>
          (b.map (fun u => levenshtein_sim t u)).foldl max 0), x ≤ 1 := by
        intro x hx
        obtain ⟨t, _, rfl⟩ := List.mem_map.mp hx
        exact foldl_max_le _ 0 (by norm_num) (by
          intro z hz
          obtain ⟨u, _, rfl⟩ := List.mem_map.mp hz
          exact levenshtein_sim_le_one t u)
      have hbwd : ∀ x ∈ b.map (fun u =>
          (a.map (fun t => levenshtein_sim t u)).foldl max 0), x ≤ 1 := by
        intro x hx
        obtain ⟨u, _, rfl⟩ := List.mem_map.mp hx
        exact foldl_max_le _ 0 (by norm_num) (by
          intro z hz
          obtain ⟨t, _, rfl⟩ := List.mem_map.mp hz
          exact levenshtein_sim_le_one t u)
      have hla : (0 : ℚ) < ((a.map (fun t =>
          (b.map (fun u => levenshtein_sim t u)).foldl max 0)).length : ℚ) := by
        simp only [List.length_map]
        exact_mod_cast List.length_pos.mpr hA
      have hlb : (0 : ℚ) < ((b.map (fun u =>
          (a.map (fun t => levenshtein_sim t u)).foldl max 0)).length : ℚ) := by
        simp only [List.length_map]
        exact_mod_cast List.length_pos.mpr hB
      have h1 := div_le_one_of_le₀ (sum_le_length _ hfwd) (le_of_lt hla)
      have h2 := div_le_one_of_le₀ (sum_le_length _ hbwd) (le_of_lt hlb)
      linarith

theorem l_symmetric_self (a : List Token) (h : a ≠ []) : l_symmetric a a = 1 := by
  simp only [l_symmetric]
  rw [if_neg (by simp [h]), if_neg (by simp [h])]
  have hone : ∀ (f : Token → Token → ℚ), (∀ t u, f t u ≤ 1) → (∀ t, f t t = 1) →
      (a.map (fun t => (a.map (fun u => f t u)).foldl max 0)).sum
        / ((a.map (fun t => (a.map (fun u => f t u)).foldl max 0)).length : ℚ) = 1 := by
    intro f hle hself
    have hall : ∀ x ∈ a.map (fun t => (a.map (fun u => f t u)).foldl max 0), x = 1 := by
      intro x hx
      obtain ⟨t, ht, rfl⟩ := List.mem_map.mp hx
      have hub : (a.map (fun u => f t u)).foldl max 0 ≤ 1 :=
        foldl_max_le _ 0 (by norm_num) (by
          intro z hz
          obtain ⟨u, _, rfl⟩ := List.mem_map.mp hz
          exact hle t u)
      have hlb : (1 : ℚ) ≤ (a.map (fun u => f t u)).foldl max 0 := by
        have hmem : f t t ∈ a.map (fun u => f t u) := List.mem_map.mpr ⟨t, ht, rfl⟩
        have := mem_le_foldl_max _ 0 _ hmem
        rwa [hself] at this
      linarith
    rw [sum_eq_length_of_all_one _ hall]
    have hlen : ((a.map (fun t => (a.map (fun u => f t u)).foldl max 0)).length : ℚ) ≠ 0 := by
      simp only [List.length_map]
      exact_mod_cast (List.length_pos.mpr h).ne'
    exact div_self hlen
  have h1 := hone (fun t u => levenshtein_sim t u)
    (fun t u => levenshtein_sim_le_one t u) (fun t => levenshtein_sim_self t)
  have h2 := hone (fun t u => levenshtein_sim u t)
    (fun t u => levenshtein_sim_le_one u t) (fun t => levenshtein_sim_self t)
  rw [h1, h2]
  norm_num

theorem not_mem_anchorChars (c : Char) (h : c.isAlphanum = true) : c ∉ anchorChars := by
  intro hmem
  fin_cases hmem <;> simp_all

theorem compute_anchor_score_alnum (qc tc : List Char)
    (hq : ∀ c ∈ qc, c.isAlphanum = true) (ht : ∀ c ∈ tc, c.isAlphanum = true) :
    compute_anchor_score qc tc = 1 := by
  simp only [compute_anchor_score]
  have h1 : qc.filter (fun c => anchorChars.contains c) = [] :=
    List.filter_eq_nil_iff.mpr (fun c hc => by
      simpa [List.elem_iff] using not_mem_anchorChars c (hq c hc))
  have h2 : tc.filter (fun c => anchorChars.contains c) = [] :=
    List.filter_eq_nil_iff.mpr (fun c hc => by
      simpa [List.elem_iff] using not_mem_anchorChars c (ht c hc))
  rw [h1, h2]
  simp

theorem anchor_score_normalized_one (q t : List Char) :
    compute_anchor_score (normalize_v2 q).flatten (normalize_v2 t).flatten = 1 :=
  compute_anchor_score_alnum _ _ (normalize_v2_flatten_alnum q) (normalize_v2_flatten_alnum t)

/-! ### Combiner bridges -/

theorem title_base_eq_spec_base (qt ct : List Token) (h : jaccard_index qt ct ≤ 1) :
    title_base_delta qt ct =
      min (0.40 * (1 - min (if qt.length = 1 ∧ ct.length > 1
              then min (jaccard_index qt ct + 0.25 * (1 - jaccard_index qt ct)) 1
              else jaccard_index qt ct) 0.80)
          + 0.40 * (1 - l_symmetric qt ct)
          + 0.20 * (1 - compute_anchor_score qt.flatten ct.flatten)
          + 0.35 * (1 - compute_anchor_score qt.flatten ct.flatten)) 1 := by
  simp only [title_base_delta]
  by_cases hc : qt.length = 1 ∧ ct.length > 1
  · rw [if_pos hc, if_pos hc]
  · rw [if_neg hc, if_neg hc, add_zero, min_eq_left h]

theorem title_base_delta_ge (q t : List Char) :
    (2 / 25 : ℚ) ≤ title_base_delta (normalize_v2 q) (normalize_v2 t) := by
  simp only [title_base_delta]
  rw [anchor_score_normalized_one q t]
  have hl1 : l_symmetric (normalize_v2 q) (normalize_v2 t) ≤ 1 := l_symmetric_le_one _ _
  apply le_min
  · have hJ : min (min (jaccard_index (normalize_v2 q) (normalize_v2 t) +
        (if (normalize_v2 q).length = 1 ∧ (normalize_v2 t).length > 1
          then 0.25 * (1 - jaccard_index (normalize_v2 q) (normalize_v2 t)) else 0)) 1)
        0.80 ≤ 0.80 := min_le_right _ _
    set J := min (min (jaccard_index (normalize_v2 q) (normalize_v2 t) +
        (if (normalize_v2 q).length = 1 ∧ (normalize_v2 t).length > 1
          then 0.25 * (1 - jaccard_index (normalize_v2 q) (normalize_v2 t)) else 0)) 1)
        0.80 with hJdef
    linarith
  · norm_num

theorem min_one_le_apply_dlc_debias (d : ℚ) (q t : List Token) (h0 : 0 ≤ d) :
    min d 1 ≤ apply_dlc_debias d q t := by
  simp only [apply_dlc_debias]
  split
  · refine le_min ?_ (min_le_right d 1)
    exact le_trans (min_le_left d 1) (by linarith)
  · exact min_le_left d 1

/-! ### Roman-mapping characterization -/

theorem ROMAN_keys : ROMAN_TO_ARABIC.map Prod.fst = ROMAN_NUMERALS := by decide

theorem mapRomanToken_eq (t : Token) :
    mapRomanToken t = if t ∈ ROMAN_NUMERALS then arabicOf t else t := by
  by_cases hm : t ∈ ROMAN_NUMERALS
  · rw [if_pos hm]
    simp only [mapRomanToken, arabicOf]
    cases hf : ROMAN_TO_ARABIC.find? (fun p => p.1 == t) <;> simp [hf]
  · rw [if_neg hm]
    simp only [mapRomanToken]
    have hnone : ROMAN_TO_ARABIC.find? (fun p => p.1 == t) = none := by
      rw [List.find?_eq_none]
      intro p hp hbeq
      apply hm
      rw [← ROMAN_keys]
      exact List.mem_map.mpr ⟨p, hp, beq_iff_eq.mp hbeq⟩
    rw [hnone]

theorem should_map_roman_iff (tokens : List Token) :
    should_map_roman tokens = true ↔
      ∃ t ∈ tokens, (1 ≤ t.length ∧ t.length ≤ 4) ∧
        ((∀ ch ∈ t, ch.isDigit = true) ∨ t ∈ ROMAN_NUMERALS) := by
  unfold should_map_roman
  rw [List.any_eq_true]
  constructor
  · rintro ⟨t, htm, hp⟩
    rw [List.mem_filter] at htm
    obtain ⟨htok, hlen⟩ := htm
    refine ⟨t, htok, ?_, ?_⟩
    · simpa [Bool.and_eq_true, decide_eq_true_eq] using hlen
    · rcases (by simpa using hp :
          t.all (fun c => c.isDigit) = true ∨ ROMAN_NUMERALS.contains t = true) with hall | hmem
      · exact Or.inl (fun ch hch => List.all_eq_true.mp hall ch hch)
      · exact Or.inr (by simpa [List.elem_iff] using hmem)
  · rintro ⟨t, htok, hlen, hdisj⟩
    refine ⟨t, List.mem_filter.mpr ⟨htok, ?_⟩, ?_⟩
    · simpa [Bool.and_eq_true, decide_eq_true_eq] using hlen
    · rw [Bool.or_eq_true_iff]
      rcases hdisj with hall | hmem
      · exact Or.inl (List.all_eq_true.mpr hall)
      · exact Or.inr (by simpa [List.elem_iff] using hmem)

/-! ### Stable sorting machinery for the ranker -/

theorem orderedInsert_pairwise_lex (x : Nat × ℚ) :
    ∀ (l : List (Nat × ℚ)),
      l.Pairwise (fun a b => a.2 < b.2 ∨ (a.2 = b.2 ∧ a.1 < b.1)) →
      (∀ y ∈ l, x.1 < y.1) →
      (l.orderedInsert (fun a b => a.2 ≤ b.2) x).Pairwise
        (fun a b => a.2 < b.2 ∨ (a.2 = b.2 ∧ a.1 < b.1)) := by
  intro l
  induction l with
  | nil => intro _ _; simp [List.orderedInsert]
  | cons y ys ih =>
    intro hl hx
    rw [List.pairwise_cons] at hl
    obtain ⟨hy, hys⟩ := hl
    simp only [List.orderedInsert]
    by_cases hle : x.2 ≤ y.2
    · rw [if_pos hle]
      refine List.Pairwise.cons ?_ (List.Pairwise.cons hy hys)
      intro z hz
      rcases List.mem_cons.mp hz with rfl | hz
      · rcases lt_or_eq_of_le hle with h | h
        · exact Or.inl h
        · exact Or.inr ⟨h, hx z (by simp)⟩
      · have hyz := hy z hz
        have hyz2 : y.2 ≤ z.2 := by
          rcases hyz with h | ⟨h, _⟩
          · exact le_of_lt h
          · exact le_of_eq h
        rcases lt_or_eq_of_le (le_trans hle hyz2) with h | h
        · exact Or.inl h
        · exact Or.inr ⟨h, hx z (by simp [hz])⟩
    · rw [if_neg hle]
      push_neg at hle
      refine List.Pairwise.cons ?_ (ih hys (fun z hz => hx z (by simp [hz])))
      intro z hz
      rcases (List.mem_orderedInsert _).mp hz with rfl | hz
      · exact Or.inl hle
      · exact hy z hz

theorem insertionSort_pairwise_lex :
    ∀ (l : List (Nat × ℚ)),
      l.Pairwise (fun a b => a.1 < b.1) →
      (List.insertionSort (fun a b => a.2 ≤ b.2) l).Pairwise
        (fun a b => a.2 < b.2 ∨ (a.2 = b.2 ∧ a.1 < b.1)) := by
  intro l
  induction l with
  | nil => intro _; simp [List.insertionSort]
  | cons x xs ih =>
    intro hl
    rw [List.pairwise_cons] at hl
    obtain ⟨hx, hxs⟩ := hl
    simp only [List.insertionSort]
    exact orderedInsert_pairwise_lex x _ (ih hxs)
      (fun y hy => hx y ((List.perm_insertionSort _ xs).mem_iff.mp hy))

theorem le_fst_of_mem_enumFrom {α : Type} :
    ∀ (l : List α) (n : Nat) (p : Nat × α), p ∈ List.enumFrom n l → n ≤ p.1 := by
  intro l
  induction l with
  | nil => intro n p hp; simp [List.enumFrom] at hp
  | cons x xs ih =>
    intro n p hp
    rw [show List.enumFrom n (x :: xs) = (n, x) :: List.enumFrom (n + 1) xs from rfl] at hp
    rcases List.mem_cons.mp hp with rfl | hp
    · exact le_refl n
    · exact le_trans (Nat.le_succ n) (ih (n + 1) p hp)

theorem pairwise_fst_lt_enumFrom {α : Type} :
    ∀ (l : List α) (n : Nat),
      (List.enumFrom n l).Pairwise (fun a b => a.1 < b.1) := by
  intro l
  induction l with
  | nil => intro n; simp [List.enumFrom]
  | cons x xs ih =>
    intro n
    rw [show List.enumFrom n (x :: xs) = (n, x) :: List.enumFrom (n + 1) xs from rfl]
    refine List.Pairwise.cons ?_ (ih (n + 1))
    intro p hp
    exact lt_of_lt_of_le (Nat.lt_succ_self n) (le_fst_of_mem_enumFrom xs (n + 1) p hp)

/-! ### The claims -/

/-- C1: for every query string and candidate string whose normalized token
sequences are both non-empty, `semantic_delta_title` computes Δ by exactly
the §4.5 recipe with the fixed constants (single-token boost, Jaccard cap
0.80, weighted combination with the anchor correction clamped to at most 1,
DLC debias, final clamp to [0,1]), as spelled out by `spec_delta`. -/
theorem C1_combiner_recipe (q c : List Char)
    (hq : normalize_v2 q ≠ []) (hc : normalize_v2 c ≠ []) :
    semantic_delta_title q c = spec_delta q c := by
  simp only [semantic_delta_title, spec_delta]
  rw [if_neg (by simp [hq, hc]), if_neg (by simp [hq, hc]),
    title_base_eq_spec_base _ _ (jaccard_index_le_one _ _)]

theorem C1_witness :
    normalize_v2 (String.toList "portal") ≠ [] ∧
    normalize_v2 (String.toList "portal 2") ≠ [] ∧
    semantic_delta_title (String.toList "portal") (String.toList "portal 2")
      = spec_delta (String.toList "portal") (String.toList "portal 2") :=
  ⟨by decide, by decide, C1_combiner_recipe _ _ (by decide) (by decide)⟩

/-- C2 counterexample: the claim asserts that the denominator of
`levenshtein_sim` is measured in Unicode scalar values; on the input
`("é", "a")` the source divides the scalar distance 1 by the byte length 2
and returns 1/2, while the claimed formula yields 0. -/
theorem C2_counterexample :
    ¬ (levenshtein_sim (['é']) (['a'])
        = 1 - (levRec (['é']) (['a']) : ℚ)
            / ((max (List.length ['é']) (List.length ['a']) : Nat) : ℚ)) := by
  rw [← levenshtein_distance_eq_levRec]
  with_unfolding_all decide

/-- C2 amended: the per-token similarity equals
`1 - levenshtein(s,t) / max(len(s), len(t))` where the distance is the
classic Levenshtein distance over Unicode scalar values (the dynamic
program is proven equal to the front-peeling recursion `levRec`), with
`sim("","") = 1`, but the lengths in the denominator are UTF-8 byte
lengths (`str::len`), not scalar counts; the two agree on ASCII tokens. -/
theorem C2_sim_amended (s t : Token) :
    levenshtein_distance s t = levRec s t ∧
    levenshtein_sim s t =
      (if s = [] ∧ t = [] then (1 : ℚ)
       else 1 - (levRec s t : ℚ) / ((max (utf8Length s) (utf8Length t) : Nat) : ℚ)) := by
  refine ⟨levenshtein_distance_eq_levRec s t, ?_⟩
  simp only [levenshtein_sim]
  by_cases h : s = [] ∧ t = []
  · obtain ⟨rfl, rfl⟩ := h
    simp [utf8Length]
  · rw [if_neg h]
    have hmax : ¬ max (utf8Length s) (utf8Length t) = 0 := by
      intro hm
      rw [Nat.max_eq_zero_iff] at hm
      exact h ⟨(utf8Length_eq_zero_iff s).mp hm.1, (utf8Length_eq_zero_iff t).mp hm.2⟩
    rw [if_neg hmax, levenshtein_distance_eq_levRec]

/-- C3: for inputs with non-empty token sequences, every character of every
normalized token is alphanumeric, so the anchor sets of the concatenated
token strings are empty, the anchor ratio computed inside
`semantic_delta_title` is exactly 1, and both the `wR·(1−R)` term and the
`μ_anchor = β·(1−R)` term vanish. -/
theorem C3_anchor_neutral (q t : List Char)
    (hq : normalize_v2 q ≠ []) (ht : normalize_v2 t ≠ []) :
    (∀ tok ∈ normalize_v2 q, ∀ ch ∈ tok, ch.isAlphanum = true) ∧
    (∀ tok ∈ normalize_v2 t, ∀ ch ∈ tok, ch.isAlphanum = true) ∧
    compute_anchor_score (normalize_v2 q).flatten (normalize_v2 t).flatten = 1 ∧
    (0.20 : ℚ) * (1 - compute_anchor_score (normalize_v2 q).flatten
      (normalize_v2 t).flatten) = 0 ∧
    (0.35 : ℚ) * (1 - compute_anchor_score (normalize_v2 q).flatten
      (normalize_v2 t).flatten) = 0 := by
  refine ⟨fun tok htok => (normalize_v2_mem q tok htok).2,
    fun tok htok => (normalize_v2_mem t tok htok).2,
    anchor_score_normalized_one q t, ?_, ?_⟩ <;>
    rw [anchor_score_normalized_one q t] <;> ring

theorem C3_witness :
    (normalize_v2 (String.toList "a+b") ≠ [] ∧
     normalize_v2 (String.toList "c.d") ≠ []) ∧
    compute_anchor_score (normalize_v2 (String.toList "a+b")).flatten
      (normalize_v2 (String.toList "c.d")).flatten = 1 :=
  ⟨⟨by decide, by decide⟩,
    (C3_anchor_neutral _ _ (by decide) (by decide)).2.2.1⟩

/-- C4: the scorer is total and bounded: for every query and candidate,
`0 ≤ semantic_delta_title q c ≤ 1` (in the rational model every division is
short-circuited exactly as in the source, so the value is always a
well-defined number). -/
theorem C4_bounded (q c : List Char) :
    0 ≤ semantic_delta_title q c ∧ semantic_delta_title q c ≤ 1 := by
  simp only [semantic_delta_title]
  split
  · norm_num
  · exact ⟨le_min (le_max_right _ 0) (by norm_num), min_le_right _ 1⟩

/-- C5: an empty candidate, an empty query, or any input whose normalization
yields no tokens forces the early return 1.0, in either argument
position. -/
theorem C5_empty_floor (q c s t : List Char) (hs : normalize_v2 s = []) :
    semantic_delta_title q [] = 1 ∧ semantic_delta_title [] c = 1 ∧
    semantic_delta_title s t = 1 ∧ semantic_delta_title t s = 1 := by
  have hnil : normalize_v2 ([] : List Char) = [] := rfl
  refine ⟨?_, ?_, ?_, ?_⟩ <;> simp [semantic_delta_title, hs, hnil]

theorem C5_witness :
    normalize_v2 (String.toList "***") = [] ∧
    (semantic_delta_title (String.toList "kissbot") [] = 1 ∧
     semantic_delta_title [] (String.toList "zelda") = 1 ∧
     semantic_delta_title (String.toList "***") (String.toList "zelda") = 1 ∧
     semantic_delta_title (String.toList "zelda") (String.toList "***") = 1) :=
  ⟨by decide, C5_empty_floor _ _ _ _ (by decide)⟩

/-- C6: the roman-numeral mapping fires exactly under the spec's gate: if
some token of length 1–4 is purely numeric or is a roman numeral in
{i..xx}, then every token exactly matching a roman numeral (including the
five-character "xviii") is replaced by its arabic digit string; otherwise
no token is changed. -/
theorem C6_roman_gate (text : List Char) :
    (should_map_roman (tokenize text) = true ↔
      ∃ t ∈ tokenize text, (1 ≤ t.length ∧ t.length ≤ 4) ∧
        ((∀ ch ∈ t, ch.isDigit = true) ∨ t ∈ ROMAN_NUMERALS)) ∧
    normalize_v2 text =
      (if should_map_roman (tokenize text)
        then (tokenize text).map (fun t => if t ∈ ROMAN_NUMERALS then arabicOf t else t)
        else tokenize text) := by
  refine ⟨should_map_roman_iff (tokenize text), ?_⟩
  simp only [normalize_v2]
  by_cases hs : should_map_roman (tokenize text)
  · rw [if_pos hs, if_pos hs]
    exact List.map_congr_left (fun t _ => mapRomanToken_eq t)
  · rw [if_neg hs, if_neg hs]

/-- C7: the self-distance of any alphanumeric-bearing string is 2/25 = 0.08
(the Jaccard cap keeps it away from 0), hence below 0.1. -/
theorem C7_near_identity (s : List Char) (h : ∃ ch ∈ s, ch.isAlphanum = true) :
    semantic_delta_title s s < 0.1 := by
  have hne : normalize_v2 s ≠ [] := normalize_v2_ne_nil s h
  simp only [semantic_delta_title]
  rw [if_neg (by simp [hne])]
  have hbase : title_base_delta (normalize_v2 s) (normalize_v2 s) = 2 / 25 := by
    simp only [title_base_delta]
    rw [jaccard_index_self _ hne, l_symmetric_self _ hne, anchor_score_normalized_one s s,
      if_neg (by omega : ¬((normalize_v2 s).length = 1 ∧ (normalize_v2 s).length > 1))]
    norm_num
  simp only [apply_dlc_debias, Bool.and_not_self]
  rw [if_neg (by simp), hbase]
  norm_num

theorem C7_witness :
    (∃ ch ∈ String.toList "zelda", ch.isAlphanum = true) ∧
    semantic_delta_title (String.toList "zelda") (String.toList "zelda") < 0.1 :=
  ⟨by decide, C7_near_identity _ (by decide)⟩

/-- C8 counterexample: appending the edition keyword "goty" to a candidate
does not always raise Δ: with query "zzzz", dropping "goty" from
"qqqq goty" yields Δ = 0.8, while the edition title scores
Δ = 0.7·1.05 = 0.735 (the single-token boost and the diluted edit average
outweigh the 5% penalty), so delta(q, c′) > delta(q, c) fails. -/
theorem C8_counterexample :
    is_dlc_like (normalize_v2 (String.toList "zzzz")) = false ∧
    is_dlc_like (normalize_v2 (String.toList "qqqq goty")) = true ∧
    semantic_delta_title (String.toList "zzzz") (String.toList "qqqq goty")
      < semantic_delta_title (String.toList "zzzz") (String.toList "qqqq") := by
  refine ⟨by decide, by decide, ?_⟩
  with_unfolding_all decide

/-- C8 amended: the edition penalty is directional and applies per
candidate: when the candidate's joined tokens contain a DLC keyword and the
query's do not, the returned Δ is the clamp of `min(1.05·Δ₀, 1)` where Δ₀
is the pre-debias distance, and otherwise Δ₀ passes through the clamp
unchanged; in both cases the returned Δ is never below the clamp of Δ₀
itself.  The cross-candidate inequality `delta(q, c′) > delta(q, c)` of the
original claim is refuted by the concrete counterexample above. -/
theorem C8_dlc_directional (q t : List Char)
    (hq : normalize_v2 q ≠ []) (ht : normalize_v2 t ≠ []) :
    (if is_dlc_like (normalize_v2 t) && !is_dlc_like (normalize_v2 q)
      then semantic_delta_title q t
        = min (max (min (title_base_delta (normalize_v2 q) (normalize_v2 t) * 1.05) 1) 0) 1
      else semantic_delta_title q t
        = min (max (title_base_delta (normalize_v2 q) (normalize_v2 t)) 0) 1) ∧
    min (max (title_base_delta (normalize_v2 q) (normalize_v2 t)) 0) 1
      ≤ semantic_delta_title q t := by
  have hunfold : semantic_delta_title q t
      = min (max (apply_dlc_debias (title_base_delta (normalize_v2 q) (normalize_v2 t))
          (normalize_v2 q) (normalize_v2 t)) 0) 1 := by
    simp only [semantic_delta_title]
    rw [if_neg (by simp [hq, ht])]
  by_cases hc : (is_dlc_like (normalize_v2 t) && !is_dlc_like (normalize_v2 q)) = true
  · refine ⟨?_, ?_⟩
    · rw [if_pos hc, hunfold]
      simp only [apply_dlc_debias, if_pos hc]
    · rw [hunfold]
      simp only [apply_dlc_debias, if_pos hc]
      set d := title_base_delta (normalize_v2 q) (normalize_v2 t) with hd
      simp only [min_def, max_def]
      split_ifs <;> linarith
  · refine ⟨?_, ?_⟩
    · rw [if_neg hc, hunfold]
      simp only [apply_dlc_debias, if_neg hc]
    · rw [hunfold]
      simp only [apply_dlc_debias, if_neg hc]
      exact le_refl _

theorem C8_witness :
    (normalize_v2 (String.toList "zzzz") ≠ [] ∧
     normalize_v2 (String.toList "qqqq goty") ≠ []) ∧
    min (max (title_base_delta (normalize_v2 (String.toList "zzzz"))
        (normalize_v2 (String.toList "qqqq goty"))) 0) 1
      ≤ semantic_delta_title (String.toList "zzzz") (String.toList "qqqq goty") :=
  ⟨⟨by decide, by decide⟩, (C8_dlc_directional _ _ (by decide) (by decide)).2⟩

/-- C9: the ranking step scores every candidate, pairs it with its original
index, and returns the pairs sorted ascending by Δ with exact ties resolved
by the original candidate position: the output is pairwise ordered by the
lexicographic (Δ, index) relation and is a permutation of the scored
enumeration, so its first element is a minimum-Δ candidate with the
smallest original position among the minima. -/
theorem C9_rank_sorted_stable (q : List Char) (titles : List (List Char)) :
    (rank q titles).Pairwise (fun a b => a.2 < b.2 ∨ (a.2 = b.2 ∧ a.1 < b.1)) ∧
    (rank q titles).Perm ((titles.enum).map (fun p => (p.1, semantic_delta_v3 q p.2))) := by
  constructor
  · unfold rank
    apply insertionSort_pairwise_lex
    rw [List.pairwise_map]
    simpa using pairwise_fst_lt_enumFrom titles 0
  · exact List.perm_insertionSort _ _

/-- C10: the scorer never returns 0: an empty token sequence forces 1, and
otherwise the 0.80 Jaccard cap keeps the weighted distance at or above
0.40·0.20 = 2/25, which survives the debias and the final clamp. -/
theorem C10_never_zero (q t : List Char) : 0 < semantic_delta_title q t := by
  simp only [semantic_delta_title]
  split
  · norm_num
  · rename_i hne
    obtain ⟨hq, ht⟩ := not_or.mp hne
    have hb := title_base_delta_ge q t
    have hmono := min_one_le_apply_dlc_debias
      (title_base_delta (normalize_v2 q) (normalize_v2 t))
      (normalize_v2 q) (normalize_v2 t) (by linarith)
    have h1 : (2 / 25 : ℚ) ≤ min (title_base_delta (normalize_v2 q) (normalize_v2 t)) 1 :=
      le_min hb (by norm_num)
    have h2 := le_trans h1 hmono
    have h3 := le_trans h2 (le_max_left (apply_dlc_debias
      (title_base_delta (normalize_v2 q) (normalize_v2 t))
      (normalize_v2 q) (normalize_v2 t)) 0)
    exact lt_min (lt_of_lt_of_le (by norm_num) h3) (by norm_num)

end DeltaS3
